import Mathlib

/-!
# Verification of the source-indexing layer (`SourceCode`)

Shallow embedding of `src/lib/source-code/source-code.js` together with proofs
of the specified properties.  JavaScript strings are modelled as `List Char`
(one entry per UTF-16 code unit of BMP text), JS numbers as `Int` (with a `ℚ`
variant where non-integral numbers matter), and thrown `TypeError` /
`RangeError` exceptions as `Except` errors.
-/

set_option maxHeartbeats 1000000

namespace SourceCodeSpec

/-- The two error kinds thrown by the query functions of `SourceCode`:
`TypeError` and `RangeError`. -/
inductive JSErr where
  | typeErr
  | rangeErr
deriving DecidableEq, Repr

/-- Modelled from the spec: the external line-break matcher
(`astUtils.createGlobalLinebreakMatcher`, outside `src/`) recognizes CR, LF,
and the Unicode line/paragraph separators U+2028/U+2029, with CRLF matched as
a single two-character break. -/
def isLineBreakChar (c : Char) : Bool :=
  c == '\r' || c == '\n' || c == '\u2028' || c == '\u2029'

/-- The constructor loop of `SourceCode` (source-code.js lines 245-264): scan
the text for line breaks; at each break push the line content seen since the
previous break and record the offset just after the break as the next line
start.  `scanText cs pos` returns the pair `(lines, lineStarts)` for the
suffix `cs` beginning at absolute offset `pos`; the initial `0` entry of
`lineStartIndices` and the implicit final line are produced by the recursion
(the `[]` base case is the constructor's final `lines.push`). -/
def scanText : List Char → Nat → List (List Char) × List Nat
  | [], _ => ([[]], [])
  | '\r' :: '\n' :: rest, pos =>
    let r := scanText rest (pos + 2)
    ([] :: r.1, (pos + 2) :: r.2)
  | c :: rest, pos =>
    if isLineBreakChar c then
      let r := scanText rest (pos + 1)
      ([] :: r.1, (pos + 1) :: r.2)
    else
      match scanText rest (pos + 1) with
      | (l :: ls, ss) => ((c :: l) :: ls, ss)
      | ([], ss) => ([[c]], ss)

/-- The fields of a constructed `SourceCode` relevant to position mapping:
the (BOM-stripped) text, the `lines` array, and the `lineStartIndices`
array. -/
structure SourceCode where
  text : List Char
  lines : List (List Char)
  lineStartIndices : List Nat
deriving Repr

/-- Construction (source-code.js lines 240-264): `lineStartIndices` starts as
`[0]` and both tables are filled by the line-break scan. -/
def mkSourceCode (text : List Char) : SourceCode :=
  { text := text
    lines := (scanText text 0).1
    lineStartIndices := 0 :: (scanText text 0).2 }

/-- A `{line, column}` location object (both fields are JS numbers). -/
structure Loc where
  line : Int
  column : Int
deriving DecidableEq, Repr

/-- `SourceCode#getLocFromIndex` (source-code.js lines 530-559), restricted to
integer arguments; the `typeof index !== "number"` guard is handled in full
fidelity by `getLocFromIndexVal` below. -/
def getLocFromIndex (sc : SourceCode) (index : Int) : Except JSErr Loc :=
  if index < 0 ∨ index > (sc.text.length : Int) then
    .error .rangeErr
  else if index = (sc.text.length : Int) then
    .ok { line := sc.lines.length, column := ((sc.lines.getLastD []).length : Int) }
  else
    let starts := sc.lineStartIndices
    let lineNumber : Nat :=
      if (starts.getD (starts.length - 1) 0 : Int) ≤ index then starts.length
      else starts.findIdx (fun el : Nat => decide (index < (el : Int)))
    .ok { line := lineNumber, column := index - (starts.getD (lineNumber - 1) 0 : Int) }

/-- `SourceCode#getIndexFromLoc` (source-code.js lines 572-605).  The
`typeof`-shape guard (lines 573-575) is satisfied by construction since `Loc`
carries numeric fields. -/
def getIndexFromLoc (sc : SourceCode) (loc : Loc) : Except JSErr Int :=
  if loc.line ≤ 0 then .error .rangeErr
  else if loc.line > (sc.lineStartIndices.length : Int) then .error .rangeErr
  else
    let starts := sc.lineStartIndices
    let lineStartIndex : Int := starts.getD (loc.line - 1).toNat 0
    let lineEndIndex : Int :=
      if loc.line = (starts.length : Int) then (sc.text.length : Int)
      else (starts.getD loc.line.toNat 0 : Int)
    let positionIndex : Int := lineStartIndex + loc.column
    if (loc.line = (starts.length : Int) ∧ positionIndex > lineEndIndex) ∨
        (loc.line < (starts.length : Int) ∧ positionIndex ≥ lineEndIndex) then
      .error .rangeErr
    else
      .ok positionIndex

/-- A JavaScript value passed to `getLocFromIndex`: either a number (possibly
non-integral, hence `ℚ`) or any value with `typeof ≠ "number"`. -/
inductive JSVal where
  | num (q : ℚ)
  | nonNumber

/-- `SourceCode#getLocFromIndex` in full fidelity over arbitrary JS argument
values (source-code.js lines 530-559): the `TypeError` fires exactly on
non-number arguments, and all numeric comparisons are over JS numbers. -/
def getLocFromIndexVal (sc : SourceCode) (v : JSVal) : Except JSErr (ℚ × ℚ) :=
  match v with
  | .nonNumber => .error .typeErr
  | .num q =>
    if q < 0 ∨ q > (sc.text.length : ℚ) then .error .rangeErr
    else if q = (sc.text.length : ℚ) then
      .ok ((sc.lines.length : ℚ), ((sc.lines.getLastD []).length : ℚ))
    else
      let starts := sc.lineStartIndices
      let lineNumber : Nat :=
        if (starts.getD (starts.length - 1) 0 : ℚ) ≤ q then starts.length
        else starts.findIdx (fun el : Nat => decide (q < (el : ℚ)))
      .ok ((lineNumber : ℚ), q - (starts.getD (lineNumber - 1) 0 : ℚ))

/-! ## Structural lemmas about the line tables -/

theorem scanText_fst_length (cs : List Char) (pos : Nat) :
    (scanText cs pos).1.length = (scanText cs pos).2.length + 1 := by
  induction cs, pos using scanText.induct with
  | case1 pos => simp [scanText]
  | case2 rest pos ih =>
    simp only [scanText]
    simpa using ih
  | case3 c rest pos hne hbr ih =>
    simp only [scanText, hbr]
    simpa using ih
  | case4 c rest pos hne hnb l ls ss heq ih =>
    rw [heq] at ih
    simp only [scanText, hnb, if_false, heq]
    simpa using ih
  | case5 c rest pos hne hnb ss heq ih =>
    rw [heq] at ih
    simp at ih

theorem scanText_fst_ne_nil (cs : List Char) (pos : Nat) :
    (scanText cs pos).1 ≠ [] := by
  intro h
  have hl := scanText_fst_length cs pos
  rw [h] at hl
  simp at hl

theorem scanText_last (cs : List Char) (pos : Nat) :
    (scanText cs pos).2.getLastD pos + ((scanText cs pos).1.getLastD []).length
      = pos + cs.length := by
  induction cs, pos using scanText.induct with
  | case1 pos => simp [scanText]
  | case2 rest pos ih =>
    simp only [scanText, List.getLastD_cons, List.length_cons]
    omega
  | case3 c rest pos hne hbr ih =>
    simp only [scanText, hbr, if_true, List.getLastD_cons, List.length_cons]
    omega
  | case4 c rest pos hne hnb l ls ss heq ih =>
    rw [heq] at ih
    dsimp only at ih
    have hl := scanText_fst_length rest (pos + 1)
    rw [heq] at hl
    dsimp only at hl
    simp only [List.length_cons] at hl
    simp only [scanText]
    rw [if_neg hnb, heq]
    dsimp only
    rcases ls with _ | ⟨a, ls2⟩
    · simp only [List.length_nil] at hl
      have hss : ss = [] := List.eq_nil_of_length_eq_zero (by omega)
      subst hss
      simp only [List.getLastD_cons, List.getLastD_nil, List.length_cons,
        List.length_nil] at ih ⊢
      omega
    · rcases ss with _ | ⟨b, ss2⟩
      · simp at hl
      · simp only [List.getLastD_cons, List.length_cons] at ih ⊢
        omega
  | case5 c rest pos hne hnb ss heq ih =>
    have hnil := scanText_fst_ne_nil rest (pos + 1)
    rw [heq] at hnil
    simp at hnil

theorem getD_length_cons {α : Type} (a : α) (l : List α) (d : α) :
    (a :: l).getD l.length d = l.getLastD a := by
  induction l generalizing a with
  | nil => rfl
  | cons b l2 ih =>
    simpa only [List.length_cons, List.getD_cons_succ, List.getLastD_cons] using ih b

theorem getLastD_mem_cons {α : Type} (a : α) (l : List α) : l.getLastD a ∈ a :: l := by
  induction l generalizing a with
  | nil => simp [List.getLastD]
  | cons b l2 ih =>
    rw [List.getLastD_cons]
    exact List.mem_cons_of_mem a (ih b)

/-- C1: for every source text and every offset `i` with `0 ≤ i ≤ length`,
converting the offset to a `{line, column}` location with `getLocFromIndex`
and converting that location back with `getIndexFromLoc` returns the original
offset, including the end-of-file offset `i = length`. -/
theorem getIndexFromLoc_getLocFromIndex (text : List Char) (i : Nat)
    (h : i ≤ text.length) :
    (getLocFromIndex (mkSourceCode text) (i : Int)).bind
      (getIndexFromLoc (mkSourceCode text)) = Except.ok (i : Int) := by
  have hfl := scanText_fst_length text 0
  have hlast := scanText_last text 0
  simp only [Nat.zero_add] at hlast
  dsimp only [getLocFromIndex, mkSourceCode]
  set SS := (scanText text 0).2 with hSS
  set LL := (scanText text 0).1 with hLL
  have hsl : (0 :: SS).length = SS.length + 1 := List.length_cons 0 SS
  have hgl : (0 :: SS).getD ((0 :: SS).length - 1) 0 = SS.getLastD 0 := by
    rw [hsl, Nat.add_sub_cancel]
    exact getD_length_cons 0 SS 0
  have h0 : ¬((i : Int) < 0 ∨ (i : Int) > (text.length : Int)) := by omega
  rw [if_neg h0]
  by_cases hi : (i : Int) = (text.length : Int)
  · rw [if_pos hi]
    dsimp only [Except.bind]
    dsimp only [getIndexFromLoc]
    have e1 : (((LL.length : Int)) - 1).toNat = SS.length := by omega
    rw [e1, getD_length_cons 0 SS 0]
    split_ifs with c1 c2 c3 c4 <;>
      first
        | omega
        | (simp only [Except.ok.injEq]; omega)
  · rw [if_neg hi]
    by_cases hA : ((((0 :: SS).getD ((0 :: SS).length - 1) 0 : Nat) : Int)) ≤ (i : Int)
    · rw [if_pos hA]
      dsimp only [Except.bind]
      dsimp only [getIndexFromLoc]
      have e1 : ((((0 :: SS).length : Nat) : Int) - 1).toNat = SS.length := by omega
      rw [e1, getD_length_cons 0 SS 0, hgl] at *
      split_ifs with c1 c2 c3 c4 <;>
        first
          | omega
          | (simp only [Except.ok.injEq]; omega)
    · rw [if_neg hA]
      rw [hgl] at hA
      dsimp only [Except.bind]
      dsimp only [getIndexFromLoc]
      -- facts about the binary-search index
      have hj1 : 1 ≤ List.findIdx (fun el : Nat => decide ((i : Int) < (el : Int))) (0 :: SS) := by
        rw [List.findIdx_cons]
        have hp0 : decide ((i : Int) < ((0 : Nat) : Int)) = false := by
          simp only [decide_eq_false_iff_not]
          omega
        rw [hp0]
        simp
      have hex : ∃ x ∈ (0 :: SS), (fun el : Nat => decide ((i : Int) < (el : Int))) x = true := by
        refine ⟨SS.getLastD 0, getLastD_mem_cons 0 SS, ?_⟩
        simp only [decide_eq_true_eq]
        omega
      have hjlt : List.findIdx (fun el : Nat => decide ((i : Int) < (el : Int))) (0 :: SS)
          < (0 :: SS).length := List.findIdx_lt_length_of_exists hex
      have hpj : (i : Int) <
          (((0 :: SS).getD (List.findIdx (fun el : Nat => decide ((i : Int) < (el : Int))) (0 :: SS)) 0 : Nat) : Int) := by
        have h1 := @List.findIdx_getElem _ (fun el : Nat => decide ((i : Int) < (el : Int))) (0 :: SS) hjlt
        simp only [decide_eq_true_eq] at h1
        rwa [List.getD_eq_getElem _ _ hjlt]
      have e2 : (((List.findIdx (fun el : Nat => decide ((i : Int) < (el : Int))) (0 :: SS) : Nat) : Int) - 1).toNat
          = List.findIdx (fun el : Nat => decide ((i : Int) < (el : Int))) (0 :: SS) - 1 := by omega
      have e3 : (((List.findIdx (fun el : Nat => decide ((i : Int) < (el : Int))) (0 :: SS) : Nat) : Int)).toNat
          = List.findIdx (fun el : Nat => decide ((i : Int) < (el : Int))) (0 :: SS) := by omega
      rw [e2, e3]
      split_ifs with c1 c2 c3 c4 <;>
        first
          | omega
          | (simp only [Except.ok.injEq]; omega)

/-- Witness for C1 at a concrete input: text `"a//x\nb"`, offset `3`. -/
theorem getIndexFromLoc_getLocFromIndex_witness :
    3 ≤ (['a', '/', '/', 'x', '\n', 'b'] : List Char).length ∧
      (getLocFromIndex (mkSourceCode ['a', '/', '/', 'x', '\n', 'b']) (3 : Int)).bind
        (getIndexFromLoc (mkSourceCode ['a', '/', '/', 'x', '\n', 'b'])) = Except.ok (3 : Int) :=
  ⟨by decide, getIndexFromLoc_getLocFromIndex ['a', '/', '/', 'x', '\n', 'b'] 3 (by decide)⟩

/-- C4: for every source text, `getLocFromIndex` applied to exactly the text
length returns `{line: number of lines, column: length of the last line}`,
the last line being the final (possibly empty) line after the last line
break. -/
theorem getLocFromIndex_at_textLength (text : List Char) :
    getLocFromIndex (mkSourceCode text) (text.length : Int) =
      Except.ok { line := ((mkSourceCode text).lines.length : Int),
                  column := (((mkSourceCode text).lines.getLastD []).length : Int) } := by
  dsimp only [getLocFromIndex, mkSourceCode]
  rw [if_neg (by omega), if_pos rfl]

/-- C2 counterexample: the non-integral number `1/2` is not an integer, yet
`getLocFromIndex` on the two-character text `"ab"` raises no type-kind error
for it (it returns a location), refuting "raises a type-kind error whenever
its argument is not an integer". -/
theorem getLocFromIndexVal_noninteger_no_typeErr :
    (¬ ∃ n : ℤ, (1 : ℚ)/2 = (n : ℚ)) ∧
      getLocFromIndexVal (mkSourceCode ['a', 'b']) (JSVal.num (1/2)) =
        Except.ok ((1 : ℚ), (1 : ℚ)/2) := by
  constructor
  · rintro ⟨n, hn⟩
    have h0 : (0 : ℚ) < (n : ℚ) := by rw [← hn]; norm_num
    have h1 : (n : ℚ) < 1 := by rw [← hn]; norm_num
    have h0i : (0 : ℤ) < n := by exact_mod_cast h0
    have h1i : n < 1 := by exact_mod_cast h1
    omega
  · have hscan : scanText ['a', 'b'] 0 = ([['a', 'b']], []) := rfl
    dsimp only [getLocFromIndexVal, mkSourceCode]
    rw [hscan]
    rw [if_neg (by norm_num), if_neg (by norm_num)]
    dsimp only
    rw [if_pos (by norm_num)]
    norm_num

/-- C2 amended: `getLocFromIndex` raises a type-kind error exactly when its
argument is not a number (a non-integral number is not rejected by the type
guard); it raises a range-kind error whenever the argument is a number with
`index < 0` or `index > textLength`; and for every integer in
`[0, textLength]` it raises no error. -/
theorem getLocFromIndexVal_errors (text : List Char) (v : JSVal) :
    (getLocFromIndexVal (mkSourceCode text) v = Except.error JSErr.typeErr ↔
      v = JSVal.nonNumber) ∧
    (∀ q : ℚ, v = JSVal.num q → (q < 0 ∨ (text.length : ℚ) < q) →
      getLocFromIndexVal (mkSourceCode text) v = Except.error JSErr.rangeErr) ∧
    (∀ n : Nat, v = JSVal.num n → n ≤ text.length →
      ∃ loc, getLocFromIndexVal (mkSourceCode text) v = Except.ok loc) := by
  refine ⟨?_, ?_, ?_⟩
  · constructor
    · intro he
      cases v with
      | nonNumber => rfl
      | num q =>
        exfalso
        dsimp only [getLocFromIndexVal] at he
        split_ifs at he
        all_goals simp at he
    · intro hv
      subst hv
      rfl
  · intro q hv hq
    subst hv
    dsimp only [getLocFromIndexVal]
    rw [if_pos (by exact hq.imp id id)]
  · intro n hv hn
    subst hv
    dsimp only [getLocFromIndexVal, mkSourceCode]
    have h1 : ¬((n : ℚ) < 0 ∨ (n : ℚ) > (text.length : ℚ)) := by
      push_neg
      constructor
      · positivity
      · exact_mod_cast hn
    rw [if_neg h1]
    by_cases h2 : (n : ℚ) = (text.length : ℚ)
    · rw [if_pos h2]
      exact ⟨_, rfl⟩
    · rw [if_neg h2]
      exact ⟨_, rfl⟩

/-- Witness for C2 amended at concrete inputs: on text `"ab"`, the integer
`-1` gets a range-kind error and the integer `1` gets a location. -/
theorem getLocFromIndexVal_errors_witness :
    getLocFromIndexVal (mkSourceCode ['a', 'b']) (JSVal.num (-1)) =
        Except.error JSErr.rangeErr ∧
      ∃ loc, getLocFromIndexVal (mkSourceCode ['a', 'b']) (JSVal.num (1 : Nat)) =
        Except.ok loc :=
  ⟨(getLocFromIndexVal_errors ['a', 'b'] (JSVal.num (-1))).2.1 (-1) rfl
      (Or.inl (by norm_num)),
    (getLocFromIndexVal_errors ['a', 'b'] (JSVal.num (1 : Nat))).2.2 1 rfl (by decide)⟩

/-- C3 counterexample: for the text `"a//x\nb"`, requesting
`getIndexFromLoc {line := 1, column := 5}` does not return `5`; it raises a
range-kind error (the length of line 1 including its line break is 5, and
the column must stay strictly below it on a non-final line). -/
theorem getIndexFromLoc_line1_col5_rangeErr :
    getIndexFromLoc (mkSourceCode ['a', '/', '/', 'x', '\n', 'b'])
        { line := 1, column := 5 } = Except.error JSErr.rangeErr := by
  rfl

/-- C3 amended: on `"a//x\nb"` the largest column accepted on line 1 is 4
(the content length of line 1, which addresses its line-break character),
returning offset 4; the offset 5 at the start of line 2 is addressed as
`{line := 2, column := 0}`, and `getLocFromIndex 5` returns that location. -/
theorem getIndexFromLoc_line_boundary :
    getIndexFromLoc (mkSourceCode ['a', '/', '/', 'x', '\n', 'b'])
        { line := 1, column := 4 } = Except.ok 4 ∧
      getIndexFromLoc (mkSourceCode ['a', '/', '/', 'x', '\n', 'b'])
        { line := 2, column := 0 } = Except.ok 5 ∧
      getLocFromIndex (mkSourceCode ['a', '/', '/', 'x', '\n', 'b']) 5 =
        Except.ok { line := 2, column := 0 } := by
  refine ⟨rfl, rfl, rfl⟩

/-! ## Tokens, comments and the merged stream -/

/-- A token or comment as produced by the parser: a type tag, a raw text
value, and the half-open character range `[start, end_)` (modelling the JS
`range[0]`/`range[1]` pair, also exposed as `.start`/`.end`). -/
structure Entry where
  type : String
  value : String
  start : Nat
  end_ : Nat
deriving DecidableEq, Repr

/-- `isCommentToken` from `@eslint-community/eslint-utils` (outside `src/`),
modelled from the spec: comments are the `Line`/`Block` trivia kinds plus the
`Shebang` retag. -/
def isCommentToken (e : Entry) : Bool :=
  e.type == "Line" || e.type == "Block" || e.type == "Shebang"

/-- `sortedMerge` (source-code.js lines 70-84): two-pointer merge of the
token list and the comment list; a token is emitted only while its start
offset is strictly below the current comment's start offset. -/
def sortedMerge : List Entry → List Entry → List Entry
  | t :: ts, c :: cs =>
    if t.start < c.start then t :: sortedMerge ts (c :: cs)
    else c :: sortedMerge (t :: ts) cs
  | ts, [] => ts
  | [], cs => cs

/-- C5 counterexample: a zero-width token and a comment both starting at
offset 0 — `sortedMerge` places the comment *before* the token, refuting
"the token is placed before the comment". -/
theorem sortedMerge_tie_counterexample :
    sortedMerge [⟨"Identifier", "", 0, 0⟩] [⟨"Line", "x", 0, 2⟩] =
      [⟨"Line", "x", 0, 2⟩, ⟨"Identifier", "", 0, 0⟩] := by
  simp [sortedMerge]

/-- C5 amended: in the merged stream, whenever the next token and the next
comment have equal start offsets, the comment is placed before the token
(the merge takes a token first only on a strictly smaller start offset). -/
theorem sortedMerge_tie (t : Entry) (ts : List Entry) (c : Entry)
    (cs : List Entry) (h : t.start = c.start) :
    sortedMerge (t :: ts) (c :: cs) = c :: sortedMerge (t :: ts) cs := by
  rw [sortedMerge]
  rw [if_neg (by omega)]

/-- Witness for C5 amended at a concrete input. -/
theorem sortedMerge_tie_witness :
    (⟨"Identifier", "", 0, 0⟩ : Entry).start = (⟨"Line", "x", 0, 2⟩ : Entry).start ∧
      sortedMerge [⟨"Identifier", "", 0, 0⟩] [⟨"Line", "x", 0, 2⟩] =
        ⟨"Line", "x", 0, 2⟩ :: sortedMerge [⟨"Identifier", "", 0, 0⟩] [] :=
  ⟨rfl, sortedMerge_tie ⟨"Identifier", "", 0, 0⟩ [] ⟨"Line", "x", 0, 2⟩ [] rfl⟩

/-! ## Adjacency / spacing engine -/

/-- A node or token as far as `isSpaceBetween` is concerned: only its
half-open range `[start, end_)` is consulted. -/
structure NodeTok where
  start : Nat
  end_ : Nat
deriving DecidableEq, Repr

/-- The range of an `Entry`, for use where a token flows into a position
where only ranges matter. -/
def Entry.toRange (e : Entry) : NodeTok :=
  ⟨e.start, e.end_⟩

/-- `nodesOrTokensOverlap` (source-code.js lines 93-96), translated
comparison for comparison. -/
def nodesOrTokensOverlap (first second : NodeTok) : Bool :=
  (decide (first.start ≤ second.start) && decide (second.start ≤ first.end_)) ||
    (decide (second.start ≤ first.start) && decide (first.start ≤ second.end_))

/-- Modelled from the spec: `TokenStore#getLastToken(node)` of the external
token-navigation primitive — the last non-comment token covered by the
node's range in the merged stream. -/
def getLastToken (stream : List Entry) (n : NodeTok) : Option Entry :=
  (stream.filter (fun e =>
    !isCommentToken e && decide (n.start ≤ e.start) && decide (e.end_ ≤ n.end_))).getLast?

/-- Modelled from the spec: `TokenStore#getFirstToken(node)` — the first
non-comment token covered by the node's range in the merged stream. -/
def getFirstToken (stream : List Entry) (n : NodeTok) : Option Entry :=
  (stream.filter (fun e =>
    !isCommentToken e && decide (n.start ≤ e.start) && decide (e.end_ ≤ n.end_))).head?

/-- Modelled from the spec: `TokenStore#getTokenAfter(x, {includeComments:
true})` — the first token or comment starting at or after the given end
offset. -/
def getTokenAfter (stream : List Entry) (pos : Nat) : Option Entry :=
  (stream.filter (fun e => decide (pos ≤ e.start))).head?

/-- Models the JS regex test `/\s/u.test(value)`. -/
def hasWhitespace (s : String) : Bool :=
  s.toList.any (fun ch => ch.isWhitespace)

/-- The token walk of `isSpaceBetween` (source-code.js lines 120-145): step
through the merged stream from the first boundary token towards the final
one; report a space when consecutive entries are not exactly adjacent (or,
in legacy mode, when a whitespace-bearing `JSXText` token is crossed).  The
fuel argument bounds the loop by the stream length; the `none` case models
the walk running out of stream. -/
def spaceWalk (stream : List Entry) (checkInsideOfJSXText : Bool)
    (finalToken : NodeTok) : Nat → NodeTok → Bool
  | 0, _ => false
  | fuel + 1, currentToken =>
    if currentToken = finalToken then false
    else
      match getTokenAfter stream currentToken.end_ with
      | none => false
      | some nextToken =>
        if currentToken.end_ ≠ nextToken.start ∨
            (checkInsideOfJSXText ∧ nextToken.toRange ≠ finalToken ∧
              nextToken.type = "JSXText" ∧ hasWhitespace nextToken.value) then
          true
        else
          spaceWalk stream checkInsideOfJSXText finalToken fuel nextToken.toRange

/-- The module-private `isSpaceBetween` (source-code.js lines 110-146):
overlap guard, orientation of the two arguments, resolution of the boundary
tokens (falling back to the argument itself), then the adjacency walk. -/
def isSpaceBetweenFn (stream : List Entry) (first second : NodeTok)
    (checkInsideOfJSXText : Bool) : Bool :=
  if nodesOrTokensOverlap first second then false
  else
    let p := if first.end_ ≤ second.start then (first, second) else (second, first)
    let firstToken := (getLastToken stream p.1).elim p.1 Entry.toRange
    let finalToken := (getFirstToken stream p.2).elim p.2 Entry.toRange
    spaceWalk stream checkInsideOfJSXText finalToken (stream.length + 1) firstToken

/-- `SourceCode#isSpaceBetween` (source-code.js lines 502-504). -/
def isSpaceBetween (stream : List Entry) (first second : NodeTok) : Bool :=
  isSpaceBetweenFn stream first second false

/-- `SourceCode#isSpaceBetweenTokens` (source-code.js lines 519-521). -/
def isSpaceBetweenTokens (stream : List Entry) (first second : NodeTok) : Bool :=
  isSpaceBetweenFn stream first second true

/-- The claim-side notion of overlap: the half-open ranges intersect or
touch at a boundary. -/
def rangesIntersectOrTouch (a b : NodeTok) : Prop :=
  a.end_ = b.start ∨ b.end_ = a.start ∨ (a.start < b.end_ ∧ b.start < a.end_)

theorem nodesOrTokensOverlap_iff (a b : NodeTok) (ha : a.start ≤ a.end_)
    (hb : b.start ≤ b.end_) :
    nodesOrTokensOverlap a b = true ↔ rangesIntersectOrTouch a b := by
  simp only [nodesOrTokensOverlap, rangesIntersectOrTouch, Bool.or_eq_true,
    Bool.and_eq_true, decide_eq_true_eq]
  omega

/-- C6: for every merged stream and every pair of nodes or tokens `a`, `b`
with valid ranges, if the half-open ranges neither intersect nor touch at a
boundary then `isSpaceBetween a b = isSpaceBetween b a`; and whenever the
ranges do overlap or touch, `isSpaceBetween` returns `false` for both
argument orders. -/
theorem isSpaceBetween_symm_and_overlap (stream : List Entry) (a b : NodeTok)
    (ha : a.start ≤ a.end_) (hb : b.start ≤ b.end_) :
    (¬ rangesIntersectOrTouch a b →
        isSpaceBetween stream a b = isSpaceBetween stream b a) ∧
      (rangesIntersectOrTouch a b →
        isSpaceBetween stream a b = false ∧ isSpaceBetween stream b a = false) := by
  have hsymm : rangesIntersectOrTouch a b ↔ rangesIntersectOrTouch b a := by
    unfold rangesIntersectOrTouch
    omega
  constructor
  · intro hno
    have h1 : nodesOrTokensOverlap a b = false := by
      rcases h2 : nodesOrTokensOverlap a b with _ | _
      · rfl
      · exact absurd ((nodesOrTokensOverlap_iff a b ha hb).mp h2) hno
    have h2 : nodesOrTokensOverlap b a = false := by
      rcases h3 : nodesOrTokensOverlap b a with _ | _
      · rfl
      · exact absurd ((nodesOrTokensOverlap_iff b a hb ha).mp h3) (hsymm.not.mp hno)
    simp only [isSpaceBetween, isSpaceBetweenFn, h1, h2, Bool.false_eq_true, if_false]
    have hsep : a.end_ < b.start ∨ b.end_ < a.start := by
      unfold rangesIntersectOrTouch at hno
      omega
    rcases hsep with hab | hba
    · rw [if_pos (le_of_lt hab), if_neg (by omega)]
    · rw [if_neg (by omega), if_pos (le_of_lt hba)]
  · intro hyes
    have h1 : nodesOrTokensOverlap a b = true :=
      (nodesOrTokensOverlap_iff a b ha hb).mpr hyes
    have h2 : nodesOrTokensOverlap b a = true :=
      (nodesOrTokensOverlap_iff b a hb ha).mpr (hsymm.mp hyes)
    constructor
    · simp only [isSpaceBetween, isSpaceBetweenFn, h1, if_true]
    · simp only [isSpaceBetween, isSpaceBetweenFn, h2, if_true]

/-- Witness for C6 at a concrete input: two separated ranges and two
touching ranges in a small stream. -/
theorem isSpaceBetween_symm_and_overlap_witness :
    ((⟨0, 1⟩ : NodeTok).start ≤ (⟨0, 1⟩ : NodeTok).end_ ∧
        (⟨2, 3⟩ : NodeTok).start ≤ (⟨2, 3⟩ : NodeTok).end_) ∧
      ((¬ rangesIntersectOrTouch ⟨0, 1⟩ ⟨2, 3⟩ →
          isSpaceBetween [⟨"Identifier", "a", 0, 1⟩, ⟨"Identifier", "b", 2, 3⟩] ⟨0, 1⟩ ⟨2, 3⟩ =
            isSpaceBetween [⟨"Identifier", "a", 0, 1⟩, ⟨"Identifier", "b", 2, 3⟩] ⟨2, 3⟩ ⟨0, 1⟩) ∧
        (rangesIntersectOrTouch ⟨0, 1⟩ ⟨2, 3⟩ →
          isSpaceBetween [⟨"Identifier", "a", 0, 1⟩, ⟨"Identifier", "b", 2, 3⟩] ⟨0, 1⟩ ⟨2, 3⟩ = false ∧
            isSpaceBetween [⟨"Identifier", "a", 0, 1⟩, ⟨"Identifier", "b", 2, 3⟩] ⟨2, 3⟩ ⟨0, 1⟩ = false)) :=
  ⟨⟨by decide, by decide⟩,
    isSpaceBetween_symm_and_overlap [⟨"Identifier", "a", 0, 1⟩, ⟨"Identifier", "b", 2, 3⟩]
      ⟨0, 1⟩ ⟨2, 3⟩ (by decide) (by decide)⟩

/-! ## Range lookup over the syntax tree -/

/-- A syntax node: a half-open range and an ordered list of children (the
type-specific child fields flattened in visiting order, as the external
traversal utility would enumerate them). -/
inductive ASTNode where
  | mk (start : Nat) (end_ : Nat) (children : List ASTNode)

def ASTNode.start : ASTNode → Nat
  | .mk s _ _ => s

def ASTNode.end_ : ASTNode → Nat
  | .mk _ e _ => e

def ASTNode.children : ASTNode → List ASTNode
  | .mk _ _ cs => cs

/-- The containment test of `getNodeByRangeIndex` (source-code.js line 476):
`node.range[0] <= index && index < node.range[1]`. -/
def containsIdx (index : Int) (n : ASTNode) : Bool :=
  decide ((n.start : Int) ≤ index) && decide (index < (n.end_ : Int))

mutual
/-- The traversal of `getNodeByRangeIndex` (source-code.js lines 470-490)
below a node already known to contain the index, with the external
`Traverser` (outside `src/`) modelled from the spec as a depth-first walk in
child order with `skip` and `break`: a non-containing child is skipped; the
first containing child becomes the recorded result and is descended into;
leaving the recorded result breaks the traversal, so the returned node is
the last one recorded along that single descent path. -/
def deepestNode (index : Int) : ASTNode → ASTNode
  | .mk s e cs =>
    match firstContainingChild index cs with
    | some d => d
    | none => .mk s e cs

/-- Helper of the modelled traversal: descend into the first child in order
that contains the index. -/
def firstContainingChild (index : Int) : List ASTNode → Option ASTNode
  | [] => none
  | c :: rest =>
    if containsIdx index c then some (deepestNode index c)
    else firstContainingChild index rest
end

/-- `SourceCode#getNodeByRangeIndex` (source-code.js lines 470-490): if the
root does not contain the index the whole tree is skipped and the result
stays `null`; otherwise the deepest node along the descent path is
returned. -/
def getNodeByRangeIndex (index : Int) (ast : ASTNode) : Option ASTNode :=
  if containsIdx index ast then some (deepestNode index ast) else none

/-- Membership of a node in a (sub)tree: reflexive-transitive closure of the
child relation. -/
inductive InTree : ASTNode → ASTNode → Prop
  | refl (n : ASTNode) : InTree n n
  | step {d c : ASTNode} {s e : Nat} {cs : List ASTNode} :
      c ∈ cs → InTree d c → InTree d (.mk s e cs)

mutual
/-- Well-formedness of the tree as the parser guarantees it: every child
range is nested inside its parent's range. -/
def nestedB : ASTNode → Bool
  | .mk s e cs => nestedAll s e cs

def nestedAll (s e : Nat) : List ASTNode → Bool
  | [] => true
  | c :: rest =>
    decide (s ≤ c.start) && decide (c.end_ ≤ e) && nestedB c && nestedAll s e rest
end

theorem nestedAll_mem {s e : Nat} {cs : List ASTNode} {c : ASTNode}
    (h : nestedAll s e cs = true) (hm : c ∈ cs) :
    s ≤ c.start ∧ c.end_ ≤ e ∧ nestedB c = true := by
  induction cs with
  | nil => cases hm
  | cons a rest ih =>
    rw [nestedAll] at h
    simp only [Bool.and_eq_true, decide_eq_true_eq] at h
    rcases List.mem_cons.mp hm with rfl | hm2
    · exact ⟨h.1.1.1, h.1.1.2, h.1.2⟩
    · exact ih h.2 hm2

theorem InTree_range {d n : ASTNode} (h : InTree d n) (hw : nestedB n = true) :
    n.start ≤ d.start ∧ d.end_ ≤ n.end_ ∧ nestedB d = true := by
  induction h with
  | refl => exact ⟨le_refl _, le_refl _, hw⟩
  | step hm ht ih =>
    rw [nestedB] at hw
    have hc := nestedAll_mem hw hm
    have hd := ih hc.2.2
    exact ⟨le_trans hc.1 hd.1, le_trans hd.2.1 hc.2.1, hd.2.2⟩

theorem firstContainingChild_none {index : Int} {cs : List ASTNode}
    (h : firstContainingChild index cs = none) :
    ∀ c ∈ cs, containsIdx index c = false := by
  induction cs with
  | nil => intro c hc; cases hc
  | cons a rest ih =>
    rw [firstContainingChild] at h
    intro c hc
    rcases List.mem_cons.mp hc with rfl | hc2
    · rcases h2 : containsIdx index c with _ | _
      · rfl
      · rw [if_pos h2] at h
        cases h
    · rcases h2 : containsIdx index a with _ | _
      · rw [if_neg (by simp [h2])] at h
        exact ih h c hc2
      · rw [if_pos h2] at h
        cases h

theorem firstContainingChild_some {index : Int} {cs : List ASTNode}
    {d : ASTNode} (h : firstContainingChild index cs = some d) :
    ∃ c ∈ cs, containsIdx index c = true ∧ d = deepestNode index c := by
  induction cs with
  | nil => cases h
  | cons a rest ih =>
    rw [firstContainingChild] at h
    rcases h2 : containsIdx index a with _ | _
    · rw [if_neg (by simp [h2])] at h
      obtain ⟨c, hc, hc2⟩ := ih h
      exact ⟨c, List.mem_cons_of_mem a hc, hc2⟩
    · rw [if_pos h2] at h
      exact ⟨a, List.mem_cons_self a rest, h2, (Option.some.inj h).symm⟩

theorem deepestNode_spec (index : Int) :
    ∀ (k : Nat) (n : ASTNode), sizeOf n ≤ k → nestedB n = true →
      containsIdx index n = true →
      InTree (deepestNode index n) n ∧
        containsIdx index (deepestNode index n) = true ∧
        ∀ d, (∃ c ∈ (deepestNode index n).children, InTree d c) →
          containsIdx index d = false := by
  intro k
  induction k with
  | zero =>
    intro n hs hw hc
    exfalso
    cases n
    simp at hs
  | succ k ih =>
    intro n hs hw hc
    cases n with
    | mk s e cs =>
      rw [deepestNode]
      cases hfc : firstContainingChild index cs with
      | none =>
        refine ⟨InTree.refl _, hc, ?_⟩
        rintro d ⟨c, hcmem, hdt⟩
        rw [ASTNode.children] at hcmem
        have hall := firstContainingChild_none hfc c hcmem
        rw [nestedB] at hw
        have hcn := nestedAll_mem hw hcmem
        have hrange := InTree_range hdt hcn.2.2
        rcases hd2 : containsIdx index d with _ | _
        · rfl
        · exfalso
          have hcc : containsIdx index c = true := by
            simp only [containsIdx, Bool.and_eq_true, decide_eq_true_eq] at hd2 ⊢
            omega
          rw [hall] at hcc
          cases hcc
      | some r =>
        obtain ⟨c, hcmem, hcont, heq⟩ := firstContainingChild_some hfc
        rw [nestedB] at hw
        have hcn := nestedAll_mem hw hcmem
        have hszc : sizeOf c ≤ k := by
          have h1 := List.sizeOf_lt_of_mem hcmem
          simp only [ASTNode.mk.sizeOf_spec] at hs
          omega
        have hinner := ih c hszc hcn.2.2 hcont
        rw [heq]
        exact ⟨InTree.step hcmem hinner.1, hinner.2.1, hinner.2.2⟩

/-- C7: for every well-formed (range-nested) tree and every offset,
`getNodeByRangeIndex` returns a node whose half-open range contains the
offset and none of whose descendants contains it (the deepest containing
node), or `null` exactly when the offset lies outside every node of the
tree. -/
theorem getNodeByRangeIndex_spec (ast : ASTNode) (index : Int)
    (hw : nestedB ast = true) :
    (∀ r, getNodeByRangeIndex index ast = some r →
        containsIdx index r = true ∧ InTree r ast ∧
        ∀ d, (∃ c ∈ r.children, InTree d c) → containsIdx index d = false) ∧
      (getNodeByRangeIndex index ast = none →
        ∀ d, InTree d ast → containsIdx index d = false) := by
  constructor
  · intro r hr
    rw [getNodeByRangeIndex] at hr
    rcases hc : containsIdx index ast with _ | _
    · rw [if_neg (by simp [hc])] at hr
      cases hr
    · rw [if_pos hc] at hr
      have hdeep := deepestNode_spec index (sizeOf ast) ast (le_refl _) hw hc
      have hre : deepestNode index ast = r := Option.some.inj hr
      rw [hre] at hdeep
      exact ⟨hdeep.2.1, hdeep.1, hdeep.2.2⟩
  · intro hnone d hd
    rw [getNodeByRangeIndex] at hnone
    rcases hc : containsIdx index ast with _ | _
    · have hrange := InTree_range hd hw
      rcases hd2 : containsIdx index d with _ | _
      · rfl
      · exfalso
        have hcc : containsIdx index ast = true := by
          simp only [containsIdx, Bool.and_eq_true, decide_eq_true_eq] at hd2 ⊢
          omega
        rw [hc] at hcc
        cases hcc
    · rw [if_pos hc] at hnone
      cases hnone

/-- Witness for C7 at a concrete input: a three-level nested tree queried at
offset 5. -/
theorem getNodeByRangeIndex_spec_witness :
    nestedB (.mk 0 10 [.mk 1 3 [], .mk 4 8 [.mk 5 6 []]]) = true ∧
      ((∀ r, getNodeByRangeIndex 5 (.mk 0 10 [.mk 1 3 [], .mk 4 8 [.mk 5 6 []]]) = some r →
          containsIdx 5 r = true ∧ InTree r (.mk 0 10 [.mk 1 3 [], .mk 4 8 [.mk 5 6 []]]) ∧
          ∀ d, (∃ c ∈ r.children, InTree d c) → containsIdx 5 d = false) ∧
        (getNodeByRangeIndex 5 (.mk 0 10 [.mk 1 3 [], .mk 4 8 [.mk 5 6 []]]) = none →
          ∀ d, InTree d (.mk 0 10 [.mk 1 3 [], .mk 4 8 [.mk 5 6 []]]) →
            containsIdx 5 d = false)) :=
  ⟨by decide,
    getNodeByRangeIndex_spec (.mk 0 10 [.mk 1 3 [], .mk 4 8 [.mk 5 6 []]]) 5 (by decide)⟩

/-! ## Comment attachment (`getComments`) -/

/-- The parent data consulted by `getComments`: its type tag and range. -/
structure ParentInfo where
  type : String
  start : Nat
  end_ : Nat
deriving DecidableEq, Repr

/-- A node as `getComments` consults it: type tag, range, the length of its
type-specific content list (`body` / `properties` / `elements` / `cases`,
collapsed into one count), the `comments` array attached to a `Program`
node, and the parent reference. -/
structure CNode where
  type : String
  start : Nat
  end_ : Nat
  bodyCount : Nat
  comments : List Entry
  parent : Option ParentInfo
deriving DecidableEq, Repr

/-- The empty-by-construction test of `getComments` (source-code.js lines
350-354): empty block statement or class body, empty object expression,
empty array expression, or switch statement with no cases. -/
def hasEmptyBody (node : CNode) : Bool :=
  ((node.type == "BlockStatement" || node.type == "ClassBody") && node.bodyCount == 0) ||
    (node.type == "ObjectExpression" && node.bodyCount == 0) ||
    (node.type == "ArrayExpression" && node.bodyCount == 0) ||
    (node.type == "SwitchStatement" && node.bodyCount == 0)

/-- The backward walk of `getComments` (source-code.js lines 366-374) over
the entries before the node, nearest first: collect comments, stopping at a
non-comment or at a comment that starts before a non-`Program` parent. -/
def leadingWalk (node : CNode) : List Entry → List Entry
  | [] => []
  | e :: rest =>
    if isCommentToken e then
      match node.parent with
      | some p =>
        if p.type ≠ "Program" ∧ e.start < p.start then []
        else e :: leadingWalk node rest
      | none => e :: leadingWalk node rest
    else []

/-- The forward walk of `getComments` (source-code.js lines 378-386) over
the entries after the node: collect comments, stopping at a non-comment or
at a comment that ends after a non-`Program` parent. -/
def trailingWalk (node : CNode) : List Entry → List Entry
  | [] => []
  | e :: rest =>
    if isCommentToken e then
      match node.parent with
      | some p =>
        if p.type ≠ "Program" ∧ e.end_ > p.end_ then []
        else e :: trailingWalk node rest
      | none => e :: trailingWalk node rest
    else []

/-- `SourceCode#getComments` (source-code.js lines 326-391), returning the
`(leading, trailing)` pair.  The token-store queries, which live outside
`src/`, are modelled from the spec over the merged stream: `getTokens(node,
{includeComments, filter})` as the entries covered by the node's range,
`getTokenBefore`/`getTokenAfter` chains as scans of the entries wholly
before/after the node.  The memoization cache is behavior-neutral and
omitted. -/
def getComments (stream : List Entry) (node : CNode) : List Entry × List Entry :=
  if node.type == "Program" then
    (if node.bodyCount == 0 then node.comments else [], [])
  else
    let trailingInside :=
      if hasEmptyBody node then
        (stream.filter (fun e =>
          decide (node.start ≤ e.start) && decide (e.end_ ≤ node.end_))).filter
            isCommentToken
      else []
    let leading :=
      (leadingWalk node
        ((stream.filter (fun e => decide (e.end_ ≤ node.start))).reverse)).reverse
    let trailing :=
      trailingInside ++
        trailingWalk node (stream.filter (fun e => decide (node.end_ ≤ e.start)))
    (leading, trailing)

theorem leadingWalk_mem {node : CNode} {l : List Entry} {x : Entry}
    (h : x ∈ leadingWalk node l) : x ∈ l := by
  induction l with
  | nil => cases h
  | cons e rest ih =>
    rw [leadingWalk] at h
    by_cases hc : isCommentToken e = true
    · rw [if_pos hc] at h
      cases hp : node.parent with
      | some p =>
        rw [hp] at h
        dsimp only at h
        by_cases hstop : p.type ≠ "Program" ∧ e.start < p.start
        · rw [if_pos hstop] at h
          cases h
        · rw [if_neg hstop] at h
          rcases List.mem_cons.mp h with rfl | h2
          · exact List.mem_cons_self _ _
          · exact List.mem_cons_of_mem _ (ih h2)
      | none =>
        rw [hp] at h
        dsimp only at h
        rcases List.mem_cons.mp h with rfl | h2
        · exact List.mem_cons_self _ _
        · exact List.mem_cons_of_mem _ (ih h2)
    · rw [if_neg hc] at h
      cases h

/-- C8: for every non-root node whose content is empty by construction,
`getComments` classifies every comment strictly inside the node's range as
trailing and not leading. -/
theorem getComments_emptyBody (stream : List Entry) (node : CNode) (c : Entry)
    (hp : node.type ≠ "Program") (he : hasEmptyBody node = true)
    (hm : c ∈ stream) (hc : isCommentToken c = true)
    (h1 : node.start < c.start) (h2 : c.start ≤ c.end_)
    (h3 : c.end_ ≤ node.end_) :
    c ∈ (getComments stream node).2 ∧ c ∉ (getComments stream node).1 := by
  unfold getComments
  rw [if_neg (by simp [hp])]
  dsimp only
  rw [if_pos he]
  constructor
  · apply List.mem_append_left
    refine List.mem_filter.mpr ⟨List.mem_filter.mpr ⟨hm, ?_⟩, hc⟩
    simp only [Bool.and_eq_true, decide_eq_true_eq]
    omega
  · intro hmem
    have hx := leadingWalk_mem (List.mem_reverse.mp hmem)
    have hx2 := List.mem_filter.mp (List.mem_reverse.mp hx)
    simp only [decide_eq_true_eq] at hx2
    omega

/-- The merged stream of the source text `"{ /*c*/ }"`: the two punctuator
tokens and the block comment between them. -/
def c8stream : List Entry :=
  [⟨"Punctuator", "", 0, 1⟩, ⟨"Block", "c", 2, 7⟩, ⟨"Punctuator", "", 8, 9⟩]

/-- The block comment of `"{ /*c*/ }"`. -/
def c8comment : Entry := ⟨"Block", "c", 2, 7⟩

/-- The empty block statement node of `"{ /*c*/ }"`. -/
def c8node : CNode := ⟨"BlockStatement", 0, 9, 0, [], some ⟨"Program", 0, 9⟩⟩

/-- Witness for C8 at the concrete input of the claim: the empty block
`"{ /*c*/ }"` with the block comment `/*c*/` strictly inside it. -/
theorem getComments_emptyBody_witness :
    c8node.type ≠ "Program" ∧ hasEmptyBody c8node = true ∧
      c8comment ∈ c8stream ∧ isCommentToken c8comment = true ∧
      c8node.start < c8comment.start ∧ c8comment.start ≤ c8comment.end_ ∧
      c8comment.end_ ≤ c8node.end_ ∧
      c8comment ∈ (getComments c8stream c8node).2 ∧
      c8comment ∉ (getComments c8stream c8node).1 := by
  refine ⟨by decide, by decide, by decide, by decide, by decide, by decide, by decide, ?_, ?_⟩
  · exact (getComments_emptyBody c8stream c8node c8comment (by decide) (by decide)
      (by decide) (by decide) (by decide) (by decide) (by decide)).1
  · exact (getComments_emptyBody c8stream c8node c8comment (by decide) (by decide)
      (by decide) (by decide) (by decide) (by decide) (by decide)).2

/-! ## Scope facade (`getScope`) -/

/-- Modelled from the spec: a scope produced by the external scope-analysis
subsystem — a type tag and its child scopes. -/
inductive Scope where
  | mk (type : String) (childScopes : List Scope)

def Scope.type : Scope → String
  | .mk t _ => t

def Scope.childScopes : Scope → List Scope
  | .mk _ cs => cs

/-- A syntax node as `getScope` consults it: a type tag and the parent
back-reference (absent on the root). -/
inductive SNode where
  | root (type : String)
  | child (type : String) (parent : SNode)

def SNode.type : SNode → String
  | .root t => t
  | .child t _ => t

/-- Modelled from the spec: the external scope-analysis subsystem — a query
`acquire(node, inner)` yielding the scope anchored at a node (if any), and
the global scope list whose head is the outermost scope. -/
structure ScopeManager where
  acquire : SNode → Bool → Option Scope
  scopes : List Scope

/-- The ancestor chain walked by `getScope`'s loop, starting at the node
itself (`for (let node = currentNode; node; node = node.parent)`). -/
def ancestorChain : SNode → List SNode
  | .root t => [.root t]
  | .child t p => .child t p :: ancestorChain p

/-- The loop of `SourceCode#getScope` (source-code.js lines 630-645): ascend
the parent chain; on the first acquired scope, substitute `childScopes[0]`
when it is a `function-expression-name` scope; fall back to the outermost
scope `scopes[0]`.  `childScopes[0]` / `scopes[0]` on an empty list is JS
`undefined`, modelled as `none`; the write-once cache is behavior-neutral
and omitted. -/
def getScopeLoop (sm : ScopeManager) (inner : Bool) : SNode → Option Scope
  | .root t =>
    match sm.acquire (.root t) inner with
    | some scope =>
      if scope.type = "function-expression-name" then scope.childScopes.head?
      else some scope
    | none => sm.scopes.head?
  | .child t p =>
    match sm.acquire (.child t p) inner with
    | some scope =>
      if scope.type = "function-expression-name" then scope.childScopes.head?
      else some scope
    | none => getScopeLoop sm inner p

/-- `SourceCode#getScope` (source-code.js lines 613-646): `inner` is true
for every node except the `Program` root. -/
def getScope (sm : ScopeManager) (currentNode : SNode) : Option Scope :=
  getScopeLoop sm (currentNode.type != "Program") currentNode

theorem getScopeLoop_find (sm : ScopeManager) (inner : Bool) (n : SNode) :
    getScopeLoop sm inner n =
      match (ancestorChain n).find? (fun a => (sm.acquire a inner).isSome) with
      | some a =>
        match sm.acquire a inner with
        | some scope =>
          if scope.type = "function-expression-name" then scope.childScopes.head?
          else some scope
        | none => none
      | none => sm.scopes.head? := by
  induction n with
  | root t =>
    rw [getScopeLoop, ancestorChain]
    cases hacq : sm.acquire (.root t) inner with
    | none => simp [List.find?, hacq]
    | some s => simp [List.find?, hacq]
  | child t p ih =>
    rw [getScopeLoop, ancestorChain]
    cases hacq : sm.acquire (.child t p) inner with
    | none => simp [List.find?, hacq, ih]
    | some s => simp [List.find?, hacq]

/-- C9: for every present node, `getScope` ascends the chain starting at the
node and, at the first node of the chain for which the scope resolver
yields a scope, returns that scope — unless it is a
`function-expression-name` scope, in which case it returns that scope's
first child scope; if the chain is exhausted without a hit, it returns the
resolver's outermost scope `scopes[0]`. -/
theorem getScope_spec (sm : ScopeManager) (n : SNode) :
    getScope sm n =
      match (ancestorChain n).find?
          (fun a => (sm.acquire a (n.type != "Program")).isSome) with
      | some a =>
        match sm.acquire a (n.type != "Program") with
        | some scope =>
          if scope.type = "function-expression-name" then scope.childScopes.head?
          else some scope
        | none => none
      | none => sm.scopes.head? :=
  getScopeLoop_find sm (n.type != "Program") n

/-! ## `getText` -/

/-- Models `String.prototype.slice(s, e)` for nonnegative arguments:
characters from index `s` (inclusive) to `e` (exclusive), clamped to the
text. -/
def jsSlice (cs : List Char) (s e : Nat) : List Char :=
  (cs.drop s).take (e - s)

/-- `SourceCode#getText` (source-code.js lines 292-298): with a node,
slice from `Math.max(range[0] - (beforeCount || 0), 0)` to
`range[1] + (afterCount || 0)`; with no node, the whole text.  Omitted
counts (`none`) model omitted JS arguments, defaulted by `|| 0`. -/
def getText (sc : SourceCode) (node : Option NodeTok)
    (beforeCount afterCount : Option Nat) : List Char :=
  match node with
  | some n =>
    jsSlice sc.text (Int.toNat (max ((n.start : Int) - (beforeCount.getD 0 : Int)) 0))
      (n.end_ + afterCount.getD 0)
  | none => sc.text

/-- C10: `getText` with no node returns the entire source text; with a node
it returns the slice from `max(start - beforeCount, 0)` (Nat subtraction
performs the clamping) to `end + afterCount`, the counts defaulting to 0;
a `beforeCount` exceeding the node's start is clamped to the beginning of
the text (and, the function being total, never raises an error). -/
theorem getText_spec (sc : SourceCode) (n : NodeTok) (b a : Option Nat) :
    getText sc none b a = sc.text ∧
      getText sc (some n) b a =
        (sc.text.drop (n.start - b.getD 0)).take
          (n.end_ + a.getD 0 - (n.start - b.getD 0)) ∧
      ∀ b2 : Nat, n.start ≤ b2 →
        getText sc (some n) (some b2) a = sc.text.take (n.end_ + a.getD 0) := by
  refine ⟨rfl, ?_, ?_⟩
  · unfold getText jsSlice
    dsimp only
    have he : Int.toNat (max ((n.start : Int) - (b.getD 0 : Int)) 0) =
        n.start - b.getD 0 := by omega
    rw [he]
  · intro b2 hb2
    unfold getText jsSlice
    dsimp only
    have he : Int.toNat (max ((n.start : Int) - ((some b2).getD 0 : Int)) 0) = 0 := by
      simp only [Option.getD_some]
      omega
    rw [he]
    simp

/-- Witness for C10 at a concrete input: text `"abcd"`, node range `[1, 3)`,
`beforeCount = 5` clamped to the beginning. -/
theorem getText_spec_witness :
    (⟨1, 3⟩ : NodeTok).start ≤ 5 ∧
      getText (mkSourceCode ['a', 'b', 'c', 'd']) (some ⟨1, 3⟩) (some 5) none =
        (mkSourceCode ['a', 'b', 'c', 'd']).text.take
          ((⟨1, 3⟩ : NodeTok).end_ + (none : Option Nat).getD 0) :=
  ⟨by decide,
    (getText_spec (mkSourceCode ['a', 'b', 'c', 'd']) ⟨1, 3⟩ (some 5) none).2.2 5
      (by decide)⟩
